import Mathlib

/-!
Shallow embedding of the YouTube-comment ETL pipeline
(`dags/youtube_etl.py`) and proofs about its specified properties.

Text is modelled as `List Char`. Whitespace is the ASCII whitespace set
used by Python's `str.split()` and the regex classes `\s`/`\S` on ASCII
input. The external `emoji` library's `replace_emoji(text, replace='')`
is modelled as a character-class filter over the Unicode emoji blocks;
the pretrained sentiment classifier is an abstract function parameter;
the database table is a list of rows in insertion order.
-/

set_option maxRecDepth 40000
namespace YoutubeEtl

/-! ## Definitions: shallow embedding of the pipeline -/

/-- Whitespace as Python's `str.split()` and regex `\s` treat ASCII text:
space, tab, newline, carriage return, vertical tab, form feed. -/
def pyIsSpace (c : Char) : Bool :=
  c = ' ' || c = '\t' || c = '\n' || c = '\r' || c = '\x0b' || c = '\x0c'

/-- Fuel-indexed splitter behind `splitWs`; the fuel only forces
structural recursion and any fuel at least the input length suffices. -/
def splitWsFuel : Nat → List Char → List (List Char)
  | 0, _ => []
  | _ + 1, [] => []
  | fuel + 1, c :: cs =>
    if pyIsSpace c then splitWsFuel fuel cs
    else ((c :: cs).takeWhile (fun d => !pyIsSpace d)) ::
      splitWsFuel fuel ((c :: cs).dropWhile (fun d => !pyIsSpace d))

/-- Python's `text.split()`: split on runs of whitespace, dropping empty
pieces. -/
def splitWs (l : List Char) : List (List Char) := splitWsFuel l.length l

/-- Python's `' '.join(words)` for the word lists this pipeline builds. -/
def joinWords : List (List Char) → List Char
  | [] => []
  | [w] => w
  | w :: x :: ws => w ++ ' ' :: joinWords (x :: ws)

/-- Does the regex `http\S+|www\.\S+` match at the head of `l`?
Both alternatives need their four literal characters followed by at
least one non-whitespace character. -/
def matchHead : List Char → Bool
  | c1 :: c2 :: c3 :: c4 :: d :: _ =>
    ((c1 = 'h' && c2 = 't' && c3 = 't' && c4 = 'p') ||
      (c1 = 'w' && c2 = 'w' && c3 = 'w' && c4 = '.')) && !pyIsSpace d
  | _ => false

/-- Length of the (greedy) match of `http\S+|www\.\S+` at the head of
`l`, or `0` when there is no match: four literal characters plus the
maximal run of non-whitespace characters after them. -/
def matchLen (l : List Char) : Nat :=
  if matchHead l then 4 + ((l.drop 4).takeWhile (fun d => !pyIsSpace d)).length
  else 0

/-- Fuel-indexed scanner behind `removeUrls`; the fuel only forces
structural recursion and any fuel at least the input length suffices. -/
def removeUrlsFuel : Nat → List Char → List Char
  | 0, _ => []
  | _ + 1, [] => []
  | fuel + 1, c :: cs =>
    if matchHead (c :: cs) then removeUrlsFuel fuel ((c :: cs).drop (matchLen (c :: cs)))
    else c :: removeUrlsFuel fuel cs

/-- Python's `re.sub(r'http\S+|www\.\S+', '', text)`: scan left to
right, delete each leftmost match, continue after it. -/
def removeUrls (l : List Char) : List Char := removeUrlsFuel l.length l

/-- Some position of `l` starts a match of `http\S+|www\.\S+`. -/
def hasUrlMatch : List Char → Bool
  | [] => false
  | c :: cs => matchHead (c :: cs) || hasUrlMatch cs

/-- Modelled character class for the external `emoji` library's
`emoji.replace_emoji(text, replace='')`: the Unicode emoji blocks
(miscellaneous symbols and pictographs, symbols and arrows used as
emoji, variation selector 16, zero-width joiner). -/
def isEmoji (c : Char) : Bool :=
  (0x1F000 ≤ c.val && c.val ≤ 0x1FAFF) ||
  (0x2600 ≤ c.val && c.val ≤ 0x27BF) ||
  (0x2B00 ≤ c.val && c.val ≤ 0x2BFF) ||
  c.val = 0xFE0F || c.val = 0x200D

/-- Emoji removal: drop every emoji character. -/
def removeEmoji (l : List Char) : List Char := l.filter (fun c => !isEmoji c)

/-- Scikit-learn's `ENGLISH_STOP_WORDS` constant
(`sklearn/feature_extraction/_stop_words.py`), used by the cleaner. -/
def stopWords : List (List Char) :=
  (["a", "about", "above", "across", "after", "afterwards", "again", "against",
    "all", "almost", "alone", "along", "already", "also", "although", "always",
    "am", "among", "amongst", "amoungst", "amount", "an", "and", "another",
    "any", "anyhow", "anyone", "anything", "anyway", "anywhere", "are",
    "around", "as", "at", "back", "be", "became", "because", "become",
    "becomes", "becoming", "been", "before", "beforehand", "behind", "being",
    "below", "beside", "besides", "between", "beyond", "bill", "both",
    "bottom", "but", "by", "call", "can", "cannot", "cant", "co", "con",
    "could", "couldnt", "cry", "de", "describe", "detail", "do", "done",
    "down", "due", "during", "each", "eg", "eight", "either", "eleven",
    "else", "elsewhere", "empty", "enough", "etc", "even", "ever", "every",
    "everyone", "everything", "everywhere", "except", "few", "fifteen",
    "fifty", "fill", "find", "fire", "first", "five", "for", "former",
    "formerly", "forty", "found", "four", "from", "front", "full", "further",
    "get", "give", "go", "had", "has", "hasnt", "have", "he", "hence", "her",
    "here", "hereafter", "hereby", "herein", "hereupon", "hers", "herself",
    "him", "himself", "his", "how", "however", "hundred", "i", "ie", "if",
    "in", "inc", "indeed", "interest", "into", "is", "it", "its", "itself",
    "keep", "last", "latter", "latterly", "least", "less", "ltd", "made",
    "many", "may", "me", "meanwhile", "might", "mill", "mine", "more",
    "moreover", "most", "mostly", "move", "much", "must", "my", "myself",
    "name", "namely", "neither", "never", "nevertheless", "next", "nine",
    "no", "nobody", "none", "noone", "nor", "not", "nothing", "now",
    "nowhere", "of", "off", "often", "on", "once", "one", "only", "onto",
    "or", "other", "others", "otherwise", "our", "ours", "ourselves", "out",
    "over", "own", "part", "per", "perhaps", "please", "put", "rather", "re",
    "same", "see", "seem", "seemed", "seeming", "seems", "serious",
    "several", "she", "should", "show", "side", "since", "sincere", "six",
    "sixty", "so", "some", "somehow", "someone", "something", "sometime",
    "sometimes", "somewhere", "still", "such", "system", "take", "ten",
    "than", "that", "the", "their", "them", "themselves", "then", "thence",
    "there", "thereafter", "thereby", "therefore", "therein", "thereupon",
    "these", "they", "thick", "thin", "third", "this", "those", "though",
    "three", "through", "throughout", "thru", "thus", "to", "together",
    "too", "top", "toward", "towards", "twelve", "twenty", "two", "un",
    "under", "until", "up", "upon", "us", "very", "via", "was", "we", "well",
    "were", "what", "whatever", "when", "whence", "whenever", "where",
    "whereafter", "whereas", "whereby", "wherein", "whereupon", "wherever",
    "whether", "which", "while", "whither", "who", "whoever", "whole",
    "whom", "whose", "why", "will", "with", "within", "without", "would",
    "yet", "you", "your", "yours", "yourself", "yourselves"] :
    List String).map String.toList

/-- Stop-word test `word.lower() in stop_words` (ASCII lowering). -/
def isStopWord (w : List Char) : Bool := stopWords.contains (w.map Char.toLower)

/-- The cleaner `clean_text` of `preprocess_comments`: remove URLs,
remove emoji, then drop stop-word tokens and re-join with single
spaces. -/
def clean_text (text : List Char) : List Char :=
  joinWords ((splitWs (removeEmoji (removeUrls text))).filter (fun w => !isStopWord w))

/-- String-typed wrapper of `clean_text`. -/
def cleanTextS (s : String) : String := String.mk (clean_text s.toList)

/-- Word count of a comment, `len(comment_text.split())`. -/
def wordCount (s : String) : Nat := (splitWs s.toList).length

/-- One item of the comment-listing API response, with the nested
fields `get_comments` reads from
`item['snippet']['topLevelComment']`. -/
structure ApiItem where
  id : String
  textDisplay : String
  authorDisplayName : String
  likeCount : Int
  publishedAt : String
deriving DecidableEq

/-- One comment dictionary as built by `get_comments` and extended by
`preprocess_comments` (`Cleaned_Comment` is absent, modelled `none`,
until the cleaning task runs). -/
structure CommentRec where
  Comment_ID : String
  Video_ID : String
  Author : String
  Comment : String
  Cleaned_Comment : Option String
  Likes : Int
  Published_At : String
  Sentiment : Option String
deriving DecidableEq

/-- The comment record `get_comments` appends for an accepted item. -/
def mkComment (video_id : String) (item : ApiItem) : CommentRec :=
  { Comment_ID := item.id
    Video_ID := video_id
    Author := item.authorDisplayName
    Comment := item.textDisplay
    Cleaned_Comment := none
    Likes := item.likeCount
    Published_At := item.publishedAt
    Sentiment := none }

/-- The loop body of `get_comments`: keep a comment exactly when its
whitespace word count is at most 200, else skip (only logged). -/
def get_comments (video_id : String) : List ApiItem → List CommentRec
  | [] => []
  | item :: rest =>
    if wordCount item.textDisplay ≤ 200 then
      mkComment video_id item :: get_comments video_id rest
    else
      get_comments video_id rest

/-- The loop of `preprocess_comments`: set each record's
`Cleaned_Comment` to `clean_text` of its raw `Comment`. -/
def preprocess_comments : List CommentRec → List CommentRec
  | [] => []
  | c :: rest =>
    { c with Cleaned_Comment := some (cleanTextS c.Comment) } :: preprocess_comments rest

/-- One row of the `youtube_comments` table (the `SERIAL` surrogate id
plays no role in any claim and is not modelled; the table is a list of
rows in insertion order). -/
structure Row where
  comment_id : String
  video_id : String
  author : String
  comment : String
  cleaned_comment : String
  likes : Int
  published_at : String
  sentiment : Option String
deriving DecidableEq

/-- Conflict test of the composite uniqueness key
`UNIQUE (comment_id, video_id)`. -/
def sameKey (r s : Row) : Bool :=
  r.comment_id = s.comment_id && r.video_id = s.video_id

/-- One `INSERT ... ON CONFLICT (comment_id, video_id) DO NOTHING`. -/
def insertRow (t : List Row) (r : Row) : List Row :=
  if t.any (sameKey r) then t else t ++ [r]

/-- The row `load_to_postgres` inserts for a preprocessed comment
(`comment['Cleaned_Comment']` must be present at this point; a missing
key would raise in Python and is modelled by `getD ""`, never exercised
on preprocessed input). -/
def rowOfComment (c : CommentRec) : Row :=
  { comment_id := c.Comment_ID
    video_id := c.Video_ID
    author := c.Author
    comment := c.Comment
    cleaned_comment := c.Cleaned_Comment.getD ""
    likes := c.Likes
    published_at := c.Published_At
    sentiment := c.Sentiment }

/-- The insert loop of `load_to_postgres` over one batch, committed
once at the end. -/
def load_to_postgres (t : List Row) (cs : List CommentRec) : List Row :=
  cs.foldl (fun acc c => insertRow acc (rowOfComment c)) t

/-- The label mapping of `sentiment_analysis`:
`"positive" if sentiment_result == "POSITIVE" else "negative"`. -/
def labelOf (sentiment_result : String) : String :=
  if sentiment_result = "POSITIVE" then "positive" else "negative"

/-- The `(comment_id, cleaned_comment)` pairs fetched by
`SELECT ... WHERE sentiment IS NULL`. -/
def nullComments (t : List Row) : List (String × String) :=
  (t.filter (fun r => r.sentiment.isNone)).map (fun r => (r.comment_id, r.cleaned_comment))

/-- The `update_data` list built by the classification loop: pairs
`(sentiment, comment_id)`. -/
def updateData (classify : String → String) (t : List Row) : List (String × String) :=
  (nullComments t).map (fun p => (labelOf (classify p.2), p.1))

/-- One `UPDATE youtube_comments SET sentiment = %s WHERE comment_id = %s`. -/
def applyUpdate (t : List Row) (u : String × String) : List Row :=
  t.map (fun r => if r.comment_id = u.2 then { r with sentiment := some u.1 } else r)

/-- The `executemany` of the update query over `update_data`. -/
def applyUpdates (t : List Row) (ud : List (String × String)) : List Row :=
  ud.foldl applyUpdate t

/-- The `sentiment_analysis` task: fetch unlabeled comments, short
circuit when there are none, otherwise classify each and write all
labels back in one batch; returns the new table and the task's return
message. The classifier pipeline is an external black box, passed as
the function `classify`. -/
def sentiment_analysis (classify : String → String) (t : List Row) : List Row × String :=
  let comments := nullComments t
  if comments.isEmpty then
    (t, "No comments to process")
  else
    let update_data := (updateData classify t)
    (applyUpdates t update_data,
      "Updated sentiment for " ++ toString update_data.length ++ " comments")

/-- Pairwise distinctness of the composite key over a table, as the
uniqueness constraint guarantees it. -/
def keyUnique : List Row → Bool
  | [] => true
  | r :: t => (!t.any (sameKey r)) && keyUnique t

def recC1V1 : CommentRec :=
  { Comment_ID := "c1", Video_ID := "v1", Author := "alice",
    Comment := "hello world", Cleaned_Comment := some "hello world",
    Likes := 3, Published_At := "2025-01-01T00:00:00Z", Sentiment := none }

/-- Short API item accepted by the fetcher, used in witnesses. -/
def itemShort : ApiItem :=
  { id := "c1", textDisplay := "nice video", authorDisplayName := "alice",
    likeCount := 3, publishedAt := "2025-01-01T00:00:00Z" }

/-- Long API item (201 single-letter words) dropped by the fetcher,
used in witnesses. -/
def itemLong : ApiItem :=
  { id := "c2",
    textDisplay := String.intercalate " " (List.replicate 201 "a"),
    authorDisplayName := "bob", likeCount := 0,
    publishedAt := "2025-01-01T00:00:00Z" }

/-- Label written last for a given `comment_id` by the sequence of
updates `executemany` performs (later updates overwrite earlier ones),
or `none` when no update touches that `comment_id`. -/
def lastLabel : List (String × String) → String → Option String
  | [], _ => none
  | u :: ud, cid =>
    match lastLabel ud cid with
    | some l => some l
    | none => if u.2 = cid then some u.1 else none

/-- Unlabeled sample row with `comment_id` `"c"` under video `"v1"`. -/
def rowU : Row :=
  { comment_id := "c", video_id := "v1", author := "a", comment := "x",
    cleaned_comment := "good stuff", likes := 0, published_at := "t", sentiment := none }

/-- Second unlabeled sample row sharing `comment_id` `"c"` but under
video `"v2"`, with a differently classified text. -/
def rowU2 : Row :=
  { comment_id := "c", video_id := "v2", author := "b", comment := "y",
    cleaned_comment := "awful", likes := 0, published_at := "t", sentiment := none }

/-- Already-labeled sample row sharing `comment_id` `"c"` under video
`"v2"`. -/
def rowL : Row :=
  { comment_id := "c", video_id := "v2", author := "b", comment := "y",
    cleaned_comment := "bad stuff", likes := 0, published_at := "t",
    sentiment := some "negative" }

/-- Classifier stub that answers `"POSITIVE"` exactly on the cleaned
text `"good stuff"`. -/
def classifyGB : String → String := fun s => if s = "good stuff" then "POSITIVE" else "NEGATIVE"

/-- Already-positively-labeled sample row sharing `comment_id` `"c"`
under video `"v2"`. -/
def rowP : Row :=
  { comment_id := "c", video_id := "v2", author := "b", comment := "y",
    cleaned_comment := "bad stuff", likes := 0, published_at := "t",
    sentiment := some "positive" }

/-- Output starts with a non-whitespace character (or is empty). -/
def noLeadSpace : List Char → Bool
  | [] => true
  | c :: _ => !pyIsSpace c

/-- Output ends with a non-whitespace character (or is empty). -/
def noTrailSpace (l : List Char) : Bool :=
  match l.getLast? with
  | none => true
  | some c => !pyIsSpace c

/-- No two adjacent whitespace characters. -/
def noDoubleSpace : List Char → Bool
  | a :: b :: r => (!(pyIsSpace a && pyIsSpace b)) && noDoubleSpace (b :: r)
  | _ => true

/-- Every whitespace character in the output is a plain space. -/
def allSingleSpace (l : List Char) : Bool := l.all (fun c => !pyIsSpace c || c = ' ')

/-! ## Theorems -/

/-- Length of `dropWhile` never exceeds the input length. -/
theorem length_dropWhile_le_own (p : Char → Bool) (l : List Char) :
    (l.dropWhile p).length ≤ l.length := by
  induction l with
  | nil => simp [List.dropWhile]
  | cons c cs ih =>
    by_cases h : p c
    · simp only [List.dropWhile, h]
      exact Nat.le_succ_of_le ih
    · simp [List.dropWhile, h]

theorem splitWsFuel_nil (f : Nat) : splitWsFuel f [] = [] := by
  cases f <;> rfl

theorem splitWsFuel_congr :
    ∀ (f g : Nat) (l : List Char), l.length ≤ f → l.length ≤ g →
      splitWsFuel f l = splitWsFuel g l := by
  intro f
  induction f with
  | zero =>
    intro g l hf _
    have : l = [] := List.length_eq_zero.mp (Nat.le_zero.mp hf)
    subst this
    rw [splitWsFuel_nil, splitWsFuel_nil]
  | succ f ih =>
    intro g l hf hg
    cases l with
    | nil => rw [splitWsFuel_nil, splitWsFuel_nil]
    | cons c cs =>
      cases g with
      | zero => exact absurd hg (by simp)
      | succ g =>
        simp only [splitWsFuel]
        have hcs : cs.length ≤ f := Nat.le_of_succ_le_succ hf
        have hcs2 : cs.length ≤ g := Nat.le_of_succ_le_succ hg
        by_cases hc : pyIsSpace c
        · simp only [hc, if_true]
          exact ih g cs hcs hcs2
        · have hdrop : ((c :: cs).dropWhile (fun d => !pyIsSpace d)).length ≤ cs.length := by
            simp only [List.dropWhile]
            have : (!pyIsSpace c) = true := by simp [hc]
            rw [this]
            exact length_dropWhile_le_own _ cs
          simp only [hc, if_false, Bool.false_eq_true]
          rw [ih g _ (Nat.le_trans hdrop hcs) (Nat.le_trans hdrop hcs2)]

theorem splitWs_nil : splitWs [] = [] := rfl

theorem splitWs_cons (c : Char) (cs : List Char) :
    splitWs (c :: cs) =
      if pyIsSpace c then splitWs cs
      else ((c :: cs).takeWhile (fun d => !pyIsSpace d)) ::
        splitWs ((c :: cs).dropWhile (fun d => !pyIsSpace d)) := by
  show splitWsFuel (cs.length + 1) (c :: cs) = _
  simp only [splitWsFuel]
  by_cases hc : pyIsSpace c
  · simp [hc, splitWs]
  · simp only [hc, if_false, splitWs]
    have hdrop : ((c :: cs).dropWhile (fun d => !pyIsSpace d)).length ≤ cs.length := by
      simp only [List.dropWhile]
      have : (!pyIsSpace c) = true := by simp [hc]
      rw [this]
      exact length_dropWhile_le_own _ cs
    rw [splitWsFuel_congr cs.length _ _ hdrop (Nat.le_refl _)]

theorem matchLen_pos {l : List Char} (h : matchHead l = true) : 0 < matchLen l := by
  simp [matchLen, h]

theorem removeUrlsFuel_nil (f : Nat) : removeUrlsFuel f [] = [] := by
  cases f <;> rfl

theorem removeUrlsFuel_congr :
    ∀ (f g : Nat) (l : List Char), l.length ≤ f → l.length ≤ g →
      removeUrlsFuel f l = removeUrlsFuel g l := by
  intro f
  induction f with
  | zero =>
    intro g l hf _
    have : l = [] := List.length_eq_zero.mp (Nat.le_zero.mp hf)
    subst this
    rw [removeUrlsFuel_nil, removeUrlsFuel_nil]
  | succ f ih =>
    intro g l hf hg
    cases l with
    | nil => rw [removeUrlsFuel_nil, removeUrlsFuel_nil]
    | cons c cs =>
      cases g with
      | zero => exact absurd hg (by simp)
      | succ g =>
        simp only [removeUrlsFuel]
        have hcs : cs.length ≤ f := Nat.le_of_succ_le_succ hf
        have hcs2 : cs.length ≤ g := Nat.le_of_succ_le_succ hg
        by_cases hc : matchHead (c :: cs)
        · simp only [hc, if_true]
          have hdrop : ((c :: cs).drop (matchLen (c :: cs))).length ≤ cs.length := by
            rw [List.length_drop]
            have hp : 0 < matchLen (c :: cs) := matchLen_pos hc
            simp only [List.length_cons]
            omega
          exact ih g _ (Nat.le_trans hdrop hcs) (Nat.le_trans hdrop hcs2)
        · simp only [hc, if_false, Bool.false_eq_true]
          rw [ih g cs hcs hcs2]

theorem removeUrls_nil : removeUrls [] = [] := rfl

theorem removeUrls_cons_match {c : Char} {cs : List Char}
    (h : matchHead (c :: cs) = true) :
    removeUrls (c :: cs) = removeUrls ((c :: cs).drop (matchLen (c :: cs))) := by
  show removeUrlsFuel (cs.length + 1) (c :: cs) = _
  simp only [removeUrlsFuel, h, if_true, removeUrls]
  have hdrop : ((c :: cs).drop (matchLen (c :: cs))).length ≤ cs.length := by
    rw [List.length_drop]
    have hp : 0 < matchLen (c :: cs) := matchLen_pos h
    simp only [List.length_cons]
    omega
  exact removeUrlsFuel_congr cs.length _ _ hdrop (Nat.le_refl _)

theorem removeUrls_cons_keep {c : Char} {cs : List Char}
    (h : matchHead (c :: cs) = false) :
    removeUrls (c :: cs) = c :: removeUrls cs := by
  show removeUrlsFuel (cs.length + 1) (c :: cs) = _
  simp only [removeUrlsFuel, h, if_false, Bool.false_eq_true, removeUrls]

theorem sameKey_comm (a b : Row) : sameKey a b = sameKey b a := by
  by_cases h1 : a.comment_id = b.comment_id
  · by_cases h2 : a.video_id = b.video_id
    · simp [sameKey, h1, h2]
    · simp [sameKey, h2, Ne.symm h2]
  · simp [sameKey, h1, Ne.symm h1]

theorem sameKey_trans_of_left {r a b : Row}
    (h1 : sameKey r a = true) (h2 : sameKey r b = true) : sameKey a b = true := by
  simp only [sameKey, Bool.and_eq_true, decide_eq_true_eq] at h1 h2 ⊢
  exact ⟨h1.1.symm.trans h2.1, h1.2.symm.trans h2.2⟩

theorem insertRow_of_conflict {t : List Row} {r : Row}
    (h : t.any (sameKey r) = true) : insertRow t r = t := by
  simp [insertRow, h]

theorem insertRow_append (t : List Row) (r : Row) :
    ∃ e, insertRow t r = t ++ e := by
  by_cases h : t.any (sameKey r)
  · exact ⟨[], by simp [insertRow, h]⟩
  · exact ⟨[r], by simp [insertRow, h]⟩

theorem any_insertRow {t : List Row} {p : Row → Bool} (r : Row)
    (h : t.any p = true) : (insertRow t r).any p = true := by
  obtain ⟨e, he⟩ := insertRow_append t r
  rw [he, List.any_append, h, Bool.true_or]

theorem any_load {t : List Row} {p : Row → Bool} (cs : List CommentRec)
    (h : t.any p = true) : (load_to_postgres t cs).any p = true := by
  induction cs generalizing t with
  | nil => exact h
  | cons c cs ih => exact ih (any_insertRow _ h)

theorem insertRow_key_mem (t : List Row) (r : Row) :
    (insertRow t r).any (sameKey r) = true := by
  by_cases h : t.any (sameKey r)
  · rw [insertRow_of_conflict h]; exact h
  · simp only [insertRow, h, if_false, Bool.false_eq_true, List.any_append]
    simp [sameKey]

theorem load_key_mem (t : List Row) (cs : List CommentRec) {c : CommentRec}
    (h : c ∈ cs) : (load_to_postgres t cs).any (sameKey (rowOfComment c)) = true := by
  induction cs generalizing t with
  | nil => cases h
  | cons c0 cs ih =>
    rcases List.mem_cons.mp h with heq | h2
    · subst heq
      exact any_load cs (insertRow_key_mem t (rowOfComment c))
    · exact ih (insertRow t (rowOfComment c0)) h2

theorem load_fixed (t : List Row) (cs : List CommentRec)
    (h : ∀ c ∈ cs, t.any (sameKey (rowOfComment c)) = true) :
    load_to_postgres t cs = t := by
  induction cs with
  | nil => rfl
  | cons c cs ih =>
    show load_to_postgres (insertRow t (rowOfComment c)) cs = t
    rw [insertRow_of_conflict (h c (by simp))]
    exact ih (fun c0 hc0 => h c0 (by simp [hc0]))

theorem load_idempotent (t : List Row) (cs : List CommentRec) :
    load_to_postgres (load_to_postgres t cs) cs = load_to_postgres t cs :=
  load_fixed _ _ (fun c hc => load_key_mem t cs hc)

theorem keyUnique_append_one {t : List Row} {r : Row}
    (hu : keyUnique t = true) (hn : t.any (sameKey r) = false) :
    keyUnique (t ++ [r]) = true := by
  induction t with
  | nil => simp [keyUnique]
  | cons a t ih =>
    rw [List.any_cons, Bool.or_eq_false_iff] at hn
    have hu' : t.any (sameKey a) = false ∧ keyUnique t = true := by
      have h0 : ((!t.any (sameKey a)) && keyUnique t) = true := hu
      rw [Bool.and_eq_true, Bool.not_eq_true'] at h0
      exact h0
    have har : sameKey a r = false := by rw [sameKey_comm]; exact hn.1
    show ((!(t ++ [r]).any (sameKey a)) && keyUnique (t ++ [r])) = true
    rw [List.any_append, hu'.1, ih hu'.2 hn.2, List.any_cons, List.any_nil, har]
    rfl

theorem keyUnique_insertRow {t : List Row} (r : Row)
    (hu : keyUnique t = true) : keyUnique (insertRow t r) = true := by
  by_cases h : t.any (sameKey r)
  · rw [insertRow_of_conflict h]; exact hu
  · simp only [insertRow, h, if_false, Bool.false_eq_true]
    exact keyUnique_append_one hu (by simpa using h)

theorem keyUnique_load (t : List Row) (cs : List CommentRec)
    (hu : keyUnique t = true) : keyUnique (load_to_postgres t cs) = true := by
  induction cs generalizing t with
  | nil => exact hu
  | cons c cs ih => exact ih _ (keyUnique_insertRow _ hu)

theorem countP_eq_zero_of_no_key {t : List Row} {r : Row}
    (h : t.any (sameKey r) = false) : t.countP (sameKey r) = 0 := by
  rw [List.countP_eq_zero]
  intro a ha
  rw [List.any_eq_false] at h
  simpa using h a ha

theorem countP_key_eq_one {t : List Row} {r : Row}
    (hu : keyUnique t = true) (h : t.any (sameKey r) = true) :
    t.countP (sameKey r) = 1 := by
  induction t with
  | nil => cases h
  | cons a t ih =>
    have hu' : t.any (sameKey a) = false ∧ keyUnique t = true := by
      have h0 : ((!t.any (sameKey a)) && keyUnique t) = true := hu
      rw [Bool.and_eq_true, Bool.not_eq_true'] at h0
      exact h0
    by_cases ha : sameKey r a
    · rw [List.countP_cons_of_pos (sameKey r) t ha]
      have hz : t.countP (sameKey r) = 0 := by
        apply countP_eq_zero_of_no_key
        rw [List.any_eq_false]
        intro b hb hrb
        have hab : sameKey a b = true := sameKey_trans_of_left ha hrb
        have hcontra : t.any (sameKey a) = true := by
          rw [List.any_eq_true]; exact ⟨b, hb, hab⟩
        rw [hu'.1] at hcontra; cases hcontra
      omega
    · rw [List.countP_cons_of_neg (sameKey r) t ha]
      apply ih hu'.2
      rw [List.any_cons, Bool.eq_false_iff.mpr ha, Bool.false_or] at h
      exact h

theorem mkComment_inj {v : String} {a b : ApiItem}
    (h : mkComment v a = mkComment v b) : a = b := by
  cases a; cases b
  simp only [mkComment, CommentRec.mk.injEq] at h
  simp_all

theorem get_comments_mem {vid : String} {items : List ApiItem} {r : CommentRec} :
    r ∈ get_comments vid items ↔
      ∃ item, item ∈ items ∧ wordCount item.textDisplay ≤ 200 ∧ r = mkComment vid item := by
  induction items with
  | nil => simp [get_comments]
  | cons it rest ih =>
    show r ∈ (if wordCount it.textDisplay ≤ 200 then
        mkComment vid it :: get_comments vid rest else get_comments vid rest) ↔ _
    by_cases h : wordCount it.textDisplay ≤ 200
    · rw [if_pos h]
      constructor
      · intro hm
        rcases List.mem_cons.mp hm with heq | hm2
        · exact ⟨it, List.mem_cons_self it rest, h, heq⟩
        · obtain ⟨x, hx, hw, hr⟩ := ih.mp hm2
          exact ⟨x, List.mem_cons_of_mem _ hx, hw, hr⟩
      · rintro ⟨x, hx, hw, hr⟩
        rcases List.mem_cons.mp hx with heq | hx2
        · subst heq; subst hr; exact List.mem_cons_self _ _
        · exact List.mem_cons_of_mem _ (ih.mpr ⟨x, hx2, hw, hr⟩)
    · rw [if_neg h]
      constructor
      · intro hm
        obtain ⟨x, hx, hw, hr⟩ := ih.mp hm
        exact ⟨x, List.mem_cons_of_mem _ hx, hw, hr⟩
      · rintro ⟨x, hx, hw, hr⟩
        rcases List.mem_cons.mp hx with heq | hx2
        · subst heq; exact absurd hw h
        · exact ih.mpr ⟨x, hx2, hw, hr⟩

/-- C1: persisting is idempotent under the composite key: inserting a
record whose `(comment_id, video_id)` pair already exists leaves the
table unchanged, running the persister twice over the same records
equals running it once, the composite-key uniqueness invariant is
preserved, and each persisted record ends up with exactly one row for
its pair. -/
theorem C1_persist_idempotent (t : List Row) (cs : List CommentRec) (r : Row) :
    (t.any (sameKey r) = true → insertRow t r = t) ∧
    load_to_postgres (load_to_postgres t cs) cs = load_to_postgres t cs ∧
    (keyUnique t = true → keyUnique (load_to_postgres t cs) = true) ∧
    (keyUnique t = true → ∀ c ∈ cs,
      (load_to_postgres t cs).countP (sameKey (rowOfComment c)) = 1) :=
  ⟨fun h => insertRow_of_conflict h,
   load_idempotent t cs,
   fun hu => keyUnique_load t cs hu,
   fun hu c hc => countP_key_eq_one (keyUnique_load t cs hu) (load_key_mem t cs hc)⟩

/-- Witness for C1 at the specification's example: the same
`(comment_id="c1", video_id="v1")` record inserted twice yields exactly
one row. -/
theorem C1_persist_idempotent_witness :
    (insertRow (load_to_postgres [] [recC1V1, recC1V1]) (rowOfComment recC1V1) =
      load_to_postgres [] [recC1V1, recC1V1]) ∧
    load_to_postgres (load_to_postgres [] [recC1V1, recC1V1]) [recC1V1, recC1V1] =
      load_to_postgres [] [recC1V1, recC1V1] ∧
    keyUnique (load_to_postgres [] [recC1V1, recC1V1]) = true ∧
    (load_to_postgres [] [recC1V1, recC1V1]).countP (sameKey (rowOfComment recC1V1)) = 1 :=
  ⟨(C1_persist_idempotent (load_to_postgres [] [recC1V1, recC1V1]) [] (rowOfComment recC1V1)).1
      (by decide),
   (C1_persist_idempotent [] [recC1V1, recC1V1] (rowOfComment recC1V1)).2.1,
   (C1_persist_idempotent [] [recC1V1, recC1V1] (rowOfComment recC1V1)).2.2.1 (by decide),
   (C1_persist_idempotent [] [recC1V1, recC1V1] (rowOfComment recC1V1)).2.2.2 (by decide)
      recC1V1 (by decide)⟩

/-- C2: a comment returned by the listing API is included in the
fetcher's output exactly when its whitespace-split word count is at
most 200. -/
theorem C2_fetcher_word_count (vid : String) (items : List ApiItem) (item : ApiItem)
    (h : item ∈ items) :
    mkComment vid item ∈ get_comments vid items ↔ wordCount item.textDisplay ≤ 200 := by
  constructor
  · intro hm
    obtain ⟨x, _, hw, hx⟩ := get_comments_mem.mp hm
    rw [mkComment_inj hx]
    exact hw
  · intro hw
    exact get_comments_mem.mpr ⟨item, h, hw, rfl⟩

/-- Witness for C2: the 2-word comment is included, and the 201-word
comment is excluded. -/
theorem C2_fetcher_word_count_witness :
    mkComment "v1" itemShort ∈ get_comments "v1" [itemShort, itemLong] ∧
    mkComment "v1" itemLong ∉ get_comments "v1" [itemShort, itemLong] :=
  ⟨(C2_fetcher_word_count "v1" [itemShort, itemLong] itemShort (by decide)).mpr (by decide),
   fun hm =>
    absurd ((C2_fetcher_word_count "v1" [itemShort, itemLong] itemLong (by decide)).mp hm)
      (by decide)⟩

/-- C9: the text cleaner returns the same records in the same order,
augmented with the derived `Cleaned_Comment` field only; every
pre-existing field of every record is unchanged. -/
theorem C9_cleaner_frame (cs : List CommentRec) :
    (preprocess_comments cs).length = cs.length ∧
    ∀ (i : Nat) (c : CommentRec), cs[i]? = some c →
      ∃ c2, (preprocess_comments cs)[i]? = some c2 ∧
        c2.Comment_ID = c.Comment_ID ∧ c2.Video_ID = c.Video_ID ∧
        c2.Author = c.Author ∧ c2.Comment = c.Comment ∧
        c2.Likes = c.Likes ∧ c2.Published_At = c.Published_At ∧
        c2.Sentiment = c.Sentiment ∧
        c2.Cleaned_Comment = some (cleanTextS c.Comment) := by
  constructor
  · induction cs with
    | nil => rfl
    | cons c rest ih => simpa [preprocess_comments] using ih
  · intro i c
    induction cs generalizing i with
    | nil => intro hi; simp at hi
    | cons c0 rest ih =>
      intro hi
      cases i with
      | zero =>
        simp only [List.getElem?_cons_zero, Option.some.injEq] at hi
        subst hi
        refine ⟨{ c0 with Cleaned_Comment := some (cleanTextS c0.Comment) }, ?_,
          rfl, rfl, rfl, rfl, rfl, rfl, rfl, rfl⟩
        simp [preprocess_comments]
      | succ n =>
        simp only [List.getElem?_cons_succ] at hi
        simpa [preprocess_comments] using ih n hi

/-- Witness for C9 at a concrete record list and index. -/
theorem C9_cleaner_frame_witness :
    ∃ c2, (preprocess_comments [recC1V1])[0]? = some c2 ∧
      c2.Comment_ID = recC1V1.Comment_ID ∧ c2.Video_ID = recC1V1.Video_ID ∧
      c2.Author = recC1V1.Author ∧ c2.Comment = recC1V1.Comment ∧
      c2.Likes = recC1V1.Likes ∧ c2.Published_At = recC1V1.Published_At ∧
      c2.Sentiment = recC1V1.Sentiment ∧
      c2.Cleaned_Comment = some (cleanTextS recC1V1.Comment) :=
  (C9_cleaner_frame [recC1V1]).2 0 recC1V1 (by decide)

theorem applyUpdates_eq_map (ud : List (String × String)) (t : List Row) :
    applyUpdates t ud = t.map (fun r =>
      match lastLabel ud r.comment_id with
      | some l => { r with sentiment := some l }
      | none => r) := by
  induction ud generalizing t with
  | nil =>
    show t = _
    simp [lastLabel]
  | cons u ud ih =>
    show applyUpdates (applyUpdate t u) ud = _
    rw [ih, applyUpdate, List.map_map]
    congr 1
    funext r
    show (fun r => match lastLabel ud r.comment_id with
      | some l => { r with sentiment := some l }
      | none => r) (if r.comment_id = u.2 then { r with sentiment := some u.1 } else r) = _
    by_cases hc : r.comment_id = u.2
    · rw [if_pos hc]
      cases hl : lastLabel ud r.comment_id with
      | some l => simp [lastLabel, hl]
      | none => simp [lastLabel, hl, hc.symm]
    · rw [if_neg hc]
      cases hl : lastLabel ud r.comment_id with
      | some l => simp [lastLabel, hl]
      | none =>
        have : ¬(u.2 = r.comment_id) := fun h => hc h.symm
        simp [lastLabel, hl, this]

theorem lastLabel_mem {ud : List (String × String)} {cid l : String}
    (h : lastLabel ud cid = some l) : (l, cid) ∈ ud := by
  induction ud with
  | nil => cases h
  | cons u ud ih =>
    rw [lastLabel] at h
    cases hl : lastLabel ud cid with
    | some l0 =>
      rw [hl] at h
      cases h
      exact List.mem_cons_of_mem _ (ih hl)
    | none =>
      rw [hl] at h
      by_cases hc : u.2 = cid
      · rw [if_pos hc] at h
        cases h
        have hu : u = (u.1, cid) := by
          cases u; simp_all
        rw [← hu]
        exact List.mem_cons_self _ _
      · rw [if_neg hc] at h
        cases h

theorem lastLabel_isSome_of_mem {ud : List (String × String)} {p : String × String}
    (h : p ∈ ud) : ∃ l, lastLabel ud p.2 = some l := by
  induction ud with
  | nil => cases h
  | cons u ud ih =>
    rcases List.mem_cons.mp h with heq | h2
    · subst heq
      rw [lastLabel]
      cases hl : lastLabel ud p.2 with
      | some l => exact ⟨l, rfl⟩
      | none => exact ⟨p.1, by rw [if_pos rfl]⟩
    · obtain ⟨l, hl⟩ := ih h2
      rw [lastLabel, hl]
      exact ⟨l, rfl⟩

theorem lastLabel_of_not_mem {ud : List (String × String)} {cid : String}
    (h : ∀ p ∈ ud, p.2 ≠ cid) : lastLabel ud cid = none := by
  induction ud with
  | nil => rfl
  | cons u ud ih =>
    rw [lastLabel, ih (fun p hp => h p (List.mem_cons_of_mem _ hp))]
    rw [if_neg (h u (List.mem_cons_self _ _))]

theorem lastLabel_of_unique {ud : List (String × String)} {cid l : String}
    (hnd : (ud.map (fun p => p.2)).Nodup) (h : (l, cid) ∈ ud) :
    lastLabel ud cid = some l := by
  induction ud with
  | nil => cases h
  | cons u ud ih =>
    rw [List.map_cons, List.nodup_cons] at hnd
    rcases List.mem_cons.mp h with heq | h2
    · subst heq
      rw [lastLabel, lastLabel_of_not_mem (fun p hp hpc => hnd.1 (by
        have hm2 : p.2 ∈ List.map (fun q => q.2) ud := List.mem_map_of_mem _ hp
        rw [hpc] at hm2
        exact hm2))]
      rw [if_pos rfl]
    · rw [lastLabel, ih hnd.2 h2]

theorem sentiment_analysis_fst (classify : String → String) (t : List Row) :
    (sentiment_analysis classify t).1 = applyUpdates t (updateData classify t) := by
  cases hn : nullComments t with
  | nil => simp [sentiment_analysis, updateData, hn, applyUpdates]
  | cons q qs => simp [sentiment_analysis, updateData, hn]

theorem sentiment_analysis_no_nulls {classify : String → String} {t : List Row}
    (h : ∀ r ∈ t, r.sentiment ≠ none) :
    sentiment_analysis classify t = (t, "No comments to process") := by
  have hn : nullComments t = [] := by
    unfold nullComments
    rw [List.filter_eq_nil_iff.mpr (fun r hr => by
      simp only [Bool.not_eq_true, Option.isNone_eq_false_iff]
      rw [Option.isSome_iff_ne_none]
      exact h r hr)]
    rfl
  simp [sentiment_analysis, hn]

theorem updateData_cids (classify : String → String) (t : List Row) :
    (updateData classify t).map (fun p => p.2) =
      (t.filter (fun r => r.sentiment.isNone)).map (fun r => r.comment_id) := by
  unfold updateData nullComments
  rw [List.map_map, List.map_map]
  rfl

theorem mem_updateData_of_null (classify : String → String) {t : List Row} {r : Row}
    (hr : r ∈ t) (hs : r.sentiment = none) :
    (labelOf (classify r.cleaned_comment), r.comment_id) ∈ updateData classify t := by
  have h1 : r ∈ t.filter (fun r => r.sentiment.isNone) :=
    List.mem_filter.mpr ⟨hr, by rw [hs]; rfl⟩
  have h2 : (r.comment_id, r.cleaned_comment) ∈ nullComments t :=
    List.mem_map_of_mem _ h1
  exact List.mem_map_of_mem _ h2

/-- Stored label for an unlabeled row, under distinctness of the
unlabeled rows' comment identifiers. -/
theorem stored_label_of_nodup (classify : String → String) (t : List Row)
    (hnd : ((t.filter (fun r => r.sentiment.isNone)).map (fun r => r.comment_id)).Nodup)
    (i : Nat) (r : Row) (hi : t[i]? = some r) (hs : r.sentiment = none) :
    ∃ r2, ((sentiment_analysis classify t).1)[i]? = some r2 ∧
      r2.sentiment = some (labelOf (classify r.cleaned_comment)) := by
  have hr : r ∈ t := List.getElem?_mem hi
  have hmem := mem_updateData_of_null classify hr hs
  have hnd2 : ((updateData classify t).map (fun p => p.2)).Nodup := by
    rw [updateData_cids]; exact hnd
  have hl : lastLabel (updateData classify t) r.comment_id =
      some (labelOf (classify r.cleaned_comment)) :=
    lastLabel_of_unique hnd2 hmem
  rw [sentiment_analysis_fst, applyUpdates_eq_map, List.getElem?_map, hi]
  exact ⟨_, rfl, by simp [hl]⟩

/-- Counterexample to C3 as stated: the table holds an unlabeled row
and an already-labeled row (`sentiment = some "negative"`) sharing
`comment_id` `"c"`; the annotator's write-back relabels the non-NULL
row too, so it does not label only rows whose sentiment is NULL. -/
theorem C3_counterexample_labels_nonnull_row :
    rowL.sentiment = some "negative" ∧
    ((sentiment_analysis (fun _ => "POSITIVE") [rowU, rowL]).1.map
      (fun r => r.sentiment)) = [some "positive", some "positive"] := by
  constructor
  · rfl
  · decide

/-- C3 (amended): the annotator reads only rows whose `sentiment` is
NULL, and when no such rows exist it short-circuits with the
descriptive no-op result, leaving the table unchanged and independent
of the classifier (which is never consulted); the write-back may,
however, also touch non-NULL rows sharing a `comment_id` with a
selected row. -/
theorem C3_annotator_short_circuit (classify classify2 : String → String) (t : List Row)
    (h : ∀ r ∈ t, r.sentiment ≠ none) :
    sentiment_analysis classify t = (t, "No comments to process") ∧
    sentiment_analysis classify t = sentiment_analysis classify2 t :=
  ⟨sentiment_analysis_no_nulls h,
   (sentiment_analysis_no_nulls h).trans (sentiment_analysis_no_nulls h).symm⟩

/-- Witness for C3 (amended) on a fully labeled one-row table, with two
different classifier stubs. -/
theorem C3_annotator_short_circuit_witness :
    sentiment_analysis (fun _ => "POSITIVE") [rowL] = ([rowL], "No comments to process") ∧
    sentiment_analysis (fun _ => "POSITIVE") [rowL] =
      sentiment_analysis (fun _ => "NEGATIVE") [rowL] :=
  C3_annotator_short_circuit (fun _ => "POSITIVE") (fun _ => "NEGATIVE") [rowL]
    (by decide)

/-- Counterexample to C4 as stated: two unlabeled rows share
`comment_id` `"c"`; the classifier returns its positive label for the
first row's text, yet the stored label of that row is `"negative"`,
because the later update for the same `comment_id` overwrites it. -/
theorem C4_counterexample_stored_label :
    classifyGB rowU.cleaned_comment = "POSITIVE" ∧ rowU.sentiment = none ∧
    ((sentiment_analysis classifyGB [rowU, rowU2]).1.map
      (fun r => r.sentiment)) = [some "negative", some "negative"] := by
  refine ⟨rfl, rfl, ?_⟩
  decide

/-- C4 (amended): the label computed for every processed unlabeled
comment is `"positive"` exactly when the classifier returns
`"POSITIVE"` and `"negative"` otherwise — a two-valued mapping with no
neutral class — and all labels are applied in one batched update; when
the unlabeled rows' comment identifiers are pairwise distinct, the
stored label of each unlabeled row equals the label computed for it. -/
theorem C4_label_mapping (classify : String → String) (t : List Row) :
    (∀ q ∈ nullComments t,
      (labelOf (classify q.2) = "positive" ↔ classify q.2 = "POSITIVE") ∧
      (labelOf (classify q.2) = "positive" ∨ labelOf (classify q.2) = "negative")) ∧
    (sentiment_analysis classify t).1 = applyUpdates t (updateData classify t) ∧
    (((t.filter (fun r => r.sentiment.isNone)).map (fun r => r.comment_id)).Nodup →
      ∀ (i : Nat) (r : Row), t[i]? = some r → r.sentiment = none →
        ∃ r2, ((sentiment_analysis classify t).1)[i]? = some r2 ∧
          r2.sentiment = some (labelOf (classify r.cleaned_comment))) := by
  refine ⟨?_, sentiment_analysis_fst classify t, ?_⟩
  · intro q _
    unfold labelOf
    by_cases h : classify q.2 = "POSITIVE"
    · rw [if_pos h]
      exact ⟨⟨fun _ => h, fun _ => rfl⟩, Or.inl rfl⟩
    · rw [if_neg h]
      refine ⟨⟨fun hc => absurd hc (by decide), fun hc => absurd hc h⟩, Or.inr rfl⟩
  · intro hnd i r hi hs
    exact stored_label_of_nodup classify t hnd i r hi hs

/-- Witness for C4 (amended) on a one-row table with the stub
classifier. -/
theorem C4_label_mapping_witness :
    ((labelOf (classifyGB "good stuff") = "positive" ↔ classifyGB "good stuff" = "POSITIVE") ∧
      (labelOf (classifyGB "good stuff") = "positive" ∨
        labelOf (classifyGB "good stuff") = "negative")) ∧
    (sentiment_analysis classifyGB [rowU]).1 = applyUpdates [rowU] (updateData classifyGB [rowU]) ∧
    ∃ r2, ((sentiment_analysis classifyGB [rowU]).1)[0]? = some r2 ∧
      r2.sentiment = some (labelOf (classifyGB rowU.cleaned_comment)) :=
  ⟨(C4_label_mapping classifyGB [rowU]).1 ("c", "good stuff") (by decide),
   (C4_label_mapping classifyGB [rowU]).2.1,
   (C4_label_mapping classifyGB [rowU]).2.2 (by decide) 0 rowU (by decide) rfl⟩

/-- C7: the annotator's write-back is keyed only by `comment_id`: if
the update sequence writes label `l` last for a `comment_id`, then
every row with that `comment_id` — whatever its `video_id` or previous
sentiment — ends with `sentiment = some l`. -/
theorem C7_update_keyed_by_comment_id (classify : String → String) (t : List Row)
    (i j : Nat) (ri rj : Row) (hi : t[i]? = some ri) (hj : t[j]? = some rj)
    (hcid : ri.comment_id = rj.comment_id) (l : String)
    (hl : lastLabel (updateData classify t) ri.comment_id = some l) :
    ∃ ri2 rj2, ((sentiment_analysis classify t).1)[i]? = some ri2 ∧
      ((sentiment_analysis classify t).1)[j]? = some rj2 ∧
      ri2.sentiment = some l ∧ rj2.sentiment = some l := by
  rw [sentiment_analysis_fst, applyUpdates_eq_map]
  refine ⟨_, _, by rw [List.getElem?_map, hi]; rfl, by rw [List.getElem?_map, hj]; rfl, ?_, ?_⟩
  · simp [hl]
  · have hl2 : lastLabel (updateData classify t) rj.comment_id = some l := by
      rw [← hcid]; exact hl
    simp [hl2]

/-- Witness for C7: two rows share `comment_id` `"c"` under different
videos `"v1"` and `"v2"`, one of them already labeled; both end with
the same written label. -/
theorem C7_update_keyed_by_comment_id_witness :
    ∃ ri2 rj2,
      ((sentiment_analysis (fun _ => "POSITIVE") [rowU, rowL]).1)[0]? = some ri2 ∧
      ((sentiment_analysis (fun _ => "POSITIVE") [rowU, rowL]).1)[1]? = some rj2 ∧
      ri2.sentiment = some "positive" ∧ rj2.sentiment = some "positive" :=
  C7_update_keyed_by_comment_id (fun _ => "POSITIVE") [rowU, rowL] 0 1 rowU rowL
    (by decide) (by decide) rfl "positive" (by decide)

theorem load_to_postgres_append (t : List Row) (cs : List CommentRec) :
    ∃ e, load_to_postgres t cs = t ++ e := by
  induction cs generalizing t with
  | nil => exact ⟨[], by simp [load_to_postgres]⟩
  | cons c cs ih =>
    obtain ⟨e1, he1⟩ := insertRow_append t (rowOfComment c)
    obtain ⟨e2, he2⟩ := ih (insertRow t (rowOfComment c))
    refine ⟨e1 ++ e2, ?_⟩
    show load_to_postgres (insertRow t (rowOfComment c)) cs = _
    rw [he2, he1, List.append_assoc]

theorem annotator_frame (classify : String → String) (t : List Row)
    (i : Nat) (r : Row) (hi : t[i]? = some r) :
    ∃ r2, ((sentiment_analysis classify t).1)[i]? = some r2 ∧
      r2.comment_id = r.comment_id ∧ r2.video_id = r.video_id ∧
      r2.author = r.author ∧ r2.comment = r.comment ∧
      r2.cleaned_comment = r.cleaned_comment ∧ r2.likes = r.likes ∧
      r2.published_at = r.published_at := by
  rw [sentiment_analysis_fst, applyUpdates_eq_map, List.getElem?_map, hi]
  cases hl : lastLabel (updateData classify t) r.comment_id with
  | some l =>
    exact ⟨{ r with sentiment := some l }, by simp [hl], rfl, rfl, rfl, rfl, rfl, rfl, rfl⟩
  | none =>
    exact ⟨r, by simp [hl], rfl, rfl, rfl, rfl, rfl, rfl, rfl⟩

theorem annotator_result_labeled (classify : String → String) (t : List Row) :
    ∀ r2 ∈ (sentiment_analysis classify t).1, r2.sentiment ≠ none := by
  intro r2 hr2
  rw [sentiment_analysis_fst, applyUpdates_eq_map] at hr2
  obtain ⟨r, hr, hf⟩ := List.mem_map.mp hr2
  cases hl : lastLabel (updateData classify t) r.comment_id with
  | some l =>
    rw [hl] at hf
    rw [← hf]
    simp
  | none =>
    rw [hl] at hf
    rw [← hf]
    intro hs
    have hmem := mem_updateData_of_null classify hr hs
    obtain ⟨l, hl2⟩ := lastLabel_isSome_of_mem hmem
    rw [hl2] at hl
    cases hl

theorem labeled_row_fixed (classify : String → String) (t : List Row)
    (hnd : (t.map (fun r => r.comment_id)).Nodup)
    (i : Nat) (r : Row) (s : String) (hi : t[i]? = some r) (hs : r.sentiment = some s) :
    ((sentiment_analysis classify t).1)[i]? = some r := by
  rw [sentiment_analysis_fst, applyUpdates_eq_map, List.getElem?_map, hi]
  have hl : lastLabel (updateData classify t) r.comment_id = none := by
    cases hl2 : lastLabel (updateData classify t) r.comment_id with
    | none => rfl
    | some l =>
      exfalso
      have hm := lastLabel_mem hl2
      obtain ⟨q, hq, hgq⟩ := List.mem_map.mp hm
      obtain ⟨r3, hr3, hhr3⟩ := List.mem_map.mp hq
      have h1 : q.1 = r.comment_id := by
        have := congrArg Prod.snd hgq
        simpa using this
      have h2 : r3.comment_id = q.1 := by
        have := congrArg Prod.fst hhr3
        simpa using this
      have hcid : r3.comment_id = r.comment_id := h2.trans h1
      have hr3t : r3 ∈ t := (List.mem_filter.mp hr3).1
      have hr3n : r3.sentiment.isNone = true := (List.mem_filter.mp hr3).2
      have hrt : r ∈ t := List.getElem?_mem hi
      have heq : r3 = r := List.inj_on_of_nodup_map hnd hr3t hrt hcid
      rw [heq, hs] at hr3n
      cases hr3n
  simp [hl]

/-- Counterexample to C8 as stated: a record whose `sentiment` is
already in a labeled state (`some "positive"`) gets its sentiment
mutated a second time, to `some "negative"`, by an annotator run that
processes an unlabeled row sharing its `comment_id` — so the sentiment
field is not mutated exactly once, nor only from the unset state. -/
theorem C8_counterexample_second_mutation :
    rowP.sentiment = some "positive" ∧
    ((sentiment_analysis (fun _ => "NEGATIVE") [rowU, rowP]).1.map
      (fun r => r.sentiment)) = [some "negative", some "negative"] := by
  refine ⟨rfl, ?_⟩
  decide

/-- C8 (amended): the persister only appends rows (never mutates or
deletes existing ones); the annotator preserves the number of rows and
every field except `sentiment`; when comment identifiers are pairwise
distinct, already-labeled rows are left exactly as they are and
unlabeled rows transition from unset to the label computed for them;
and a second annotator run is always a no-op, so each row's sentiment
is mutated at most in one run. -/
theorem C8_record_lifecycle (classify classify2 : String → String) (t : List Row)
    (cs : List CommentRec) :
    (∃ e, load_to_postgres t cs = t ++ e) ∧
    (sentiment_analysis classify t).1.length = t.length ∧
    (∀ (i : Nat) (r : Row), t[i]? = some r →
      ∃ r2, ((sentiment_analysis classify t).1)[i]? = some r2 ∧
        r2.comment_id = r.comment_id ∧ r2.video_id = r.video_id ∧
        r2.author = r.author ∧ r2.comment = r.comment ∧
        r2.cleaned_comment = r.cleaned_comment ∧ r2.likes = r.likes ∧
        r2.published_at = r.published_at) ∧
    ((t.map (fun r => r.comment_id)).Nodup →
      ∀ (i : Nat) (r : Row), t[i]? = some r →
        (∀ s, r.sentiment = some s → ((sentiment_analysis classify t).1)[i]? = some r) ∧
        (r.sentiment = none →
          ∃ r2, ((sentiment_analysis classify t).1)[i]? = some r2 ∧
            r2.sentiment = some (labelOf (classify r.cleaned_comment)))) ∧
    sentiment_analysis classify2 ((sentiment_analysis classify t).1) =
      ((sentiment_analysis classify t).1, "No comments to process") := by
  refine ⟨load_to_postgres_append t cs, ?_, ?_, ?_, ?_⟩
  · rw [sentiment_analysis_fst, applyUpdates_eq_map, List.length_map]
  · intro i r hi
    exact annotator_frame classify t i r hi
  · intro hnd i r hi
    constructor
    · intro s hs
      exact labeled_row_fixed classify t hnd i r s hi hs
    · intro hs
      have hnd2 : ((t.filter (fun r => r.sentiment.isNone)).map
          (fun r => r.comment_id)).Nodup :=
        List.Sublist.nodup (List.Sublist.map _ (List.filter_sublist t)) hnd
      exact stored_label_of_nodup classify t hnd2 i r hi hs
  · exact sentiment_analysis_no_nulls (annotator_result_labeled classify t)

/-- Witness for C8 (amended) at a concrete one-row unlabeled table and
one-record batch. -/
theorem C8_record_lifecycle_witness :
    (∃ e, load_to_postgres [rowP] [recC1V1] = [rowP] ++ e) ∧
    (sentiment_analysis classifyGB [rowU]).1.length = 1 ∧
    (∃ r2, ((sentiment_analysis classifyGB [rowU]).1)[0]? = some r2 ∧
      r2.comment_id = rowU.comment_id ∧ r2.video_id = rowU.video_id ∧
      r2.author = rowU.author ∧ r2.comment = rowU.comment ∧
      r2.cleaned_comment = rowU.cleaned_comment ∧ r2.likes = rowU.likes ∧
      r2.published_at = rowU.published_at) ∧
    (∃ r2, ((sentiment_analysis classifyGB [rowU]).1)[0]? = some r2 ∧
      r2.sentiment = some (labelOf (classifyGB rowU.cleaned_comment))) ∧
    sentiment_analysis classifyGB ((sentiment_analysis classifyGB [rowU]).1) =
      ((sentiment_analysis classifyGB [rowU]).1, "No comments to process") :=
  ⟨(C8_record_lifecycle classifyGB classifyGB [rowP] [recC1V1]).1,
   (C8_record_lifecycle classifyGB classifyGB [rowU] []).2.1,
   (C8_record_lifecycle classifyGB classifyGB [rowU] []).2.2.1 0 rowU (by decide),
   ((C8_record_lifecycle classifyGB classifyGB [rowU] []).2.2.2.1 (by decide) 0 rowU
      (by decide)).2 rfl,
   (C8_record_lifecycle classifyGB classifyGB [rowU] []).2.2.2.2⟩

theorem splitWs_tokens :
    ∀ (f : Nat) (l : List Char), l.length ≤ f →
      ∀ w ∈ splitWs l, w ≠ [] ∧ (∀ c ∈ w, pyIsSpace c = false) ∧ (∀ c ∈ w, c ∈ l) := by
  intro f
  induction f with
  | zero =>
    intro l hl w hw
    have : l = [] := List.length_eq_zero.mp (Nat.le_zero.mp hl)
    subst this
    rw [splitWs_nil] at hw
    cases hw
  | succ f ih =>
    intro l hl w hw
    cases l with
    | nil => rw [splitWs_nil] at hw; cases hw
    | cons c cs =>
      rw [splitWs_cons] at hw
      by_cases hc : pyIsSpace c
      · rw [if_pos hc] at hw
        obtain ⟨h1, h2, h3⟩ := ih cs (Nat.le_of_succ_le_succ hl) w hw
        exact ⟨h1, h2, fun d hd => List.mem_cons_of_mem _ (h3 d hd)⟩
      · rw [if_neg hc] at hw
        rcases List.mem_cons.mp hw with heq | hw2
        · subst heq
          refine ⟨?_, ?_, ?_⟩
          · rw [List.takeWhile_cons_of_pos (by simpa using hc)]
            simp
          · intro d hd
            have hp := List.mem_takeWhile_imp hd
            simpa using hp
          · intro d hd
            exact (List.takeWhile_sublist _).subset hd
        · have hlen : ((c :: cs).dropWhile (fun d => !pyIsSpace d)).length ≤ f := by
            rw [List.dropWhile_cons_of_pos (by simpa using hc)]
            exact Nat.le_trans (length_dropWhile_le_own _ cs) (Nat.le_of_succ_le_succ hl)
          obtain ⟨h1, h2, h3⟩ := ih _ hlen w hw2
          exact ⟨h1, h2, fun d hd => (List.dropWhile_sublist _).subset (h3 d hd)⟩

theorem splitWs_token_props (l : List Char) :
    ∀ w ∈ splitWs l, w ≠ [] ∧ (∀ c ∈ w, pyIsSpace c = false) ∧ (∀ c ∈ w, c ∈ l) :=
  splitWs_tokens l.length l (Nat.le_refl _)

theorem splitWs_single {w : List Char} (hne : w ≠ [])
    (hns : ∀ c ∈ w, pyIsSpace c = false) : splitWs w = [w] := by
  cases w with
  | nil => cases hne rfl
  | cons c cs =>
    rw [splitWs_cons, if_neg (by simp [hns c (by simp)])]
    rw [List.takeWhile_eq_self_iff.mpr (fun d hd => by simp [hns d hd])]
    rw [List.dropWhile_eq_nil_iff.mpr (fun d hd => by simp [hns d hd]), splitWs_nil]

theorem splitWs_append_sep {w r : List Char} (hne : w ≠ [])
    (hns : ∀ c ∈ w, pyIsSpace c = false) :
    splitWs (w ++ ' ' :: r) = w :: splitWs r := by
  cases w with
  | nil => cases hne rfl
  | cons c cs =>
    have hc : pyIsSpace c = false := hns c (by simp)
    have hcs : ∀ d ∈ cs, (fun d => !pyIsSpace d) d = true := by
      intro d hd
      simp [hns d (List.mem_cons_of_mem _ hd)]
    rw [List.cons_append, splitWs_cons, if_neg (by simp [hc])]
    rw [List.takeWhile_cons_of_pos (by simp [hc]),
      List.takeWhile_append_of_pos hcs,
      List.takeWhile_cons_of_neg (by simp [pyIsSpace]), List.append_nil]
    rw [List.dropWhile_cons_of_pos (by simp [hc]),
      List.dropWhile_append_of_pos hcs,
      List.dropWhile_cons_of_neg (by simp [pyIsSpace])]
    have hsp : splitWs (' ' :: r) = splitWs r := by
      rw [splitWs_cons, if_pos (by simp [pyIsSpace])]
    rw [hsp]

theorem splitWs_joinWords :
    ∀ {ts : List (List Char)},
      (∀ w ∈ ts, w ≠ [] ∧ ∀ c ∈ w, pyIsSpace c = false) →
      splitWs (joinWords ts) = ts := by
  intro ts
  induction ts with
  | nil => intro _; rfl
  | cons w ts ih =>
    intro h
    cases ts with
    | nil =>
      show splitWs w = [w]
      have hw := h w (by simp)
      exact splitWs_single hw.1 hw.2
    | cons x ts2 =>
      show splitWs (w ++ ' ' :: joinWords (x :: ts2)) = w :: (x :: ts2)
      have hw := h w (by simp)
      rw [splitWs_append_sep hw.1 hw.2]
      rw [ih (fun v hv => h v (List.mem_cons_of_mem _ hv))]

theorem joinWords_chars :
    ∀ {ts : List (List Char)} {c : Char},
      c ∈ joinWords ts → c = ' ' ∨ ∃ w, w ∈ ts ∧ c ∈ w := by
  intro ts
  induction ts with
  | nil => intro c hc; cases hc
  | cons w ts ih =>
    intro c hc
    cases ts with
    | nil => exact Or.inr ⟨w, by simp, hc⟩
    | cons x ts2 =>
      rcases List.mem_append.mp hc with h1 | h2
      · exact Or.inr ⟨w, by simp, h1⟩
      · rcases List.mem_cons.mp h2 with heq | h3
        · exact Or.inl heq
        · rcases ih h3 with h4 | ⟨v, hv, hcv⟩
          · exact Or.inl h4
          · exact Or.inr ⟨v, List.mem_cons_of_mem _ hv, hcv⟩

theorem joinWords_ne_nil {ts : List (List Char)} (h : ts ≠ [])
    (hne : ∀ w ∈ ts, w ≠ []) : joinWords ts ≠ [] := by
  cases ts with
  | nil => cases h rfl
  | cons w ts =>
    cases ts with
    | nil => exact hne w (by simp)
    | cons x ts2 =>
      show w ++ ' ' :: joinWords (x :: ts2) ≠ []
      simp

theorem joinWords_head_cons (x : List Char) (ts : List (List Char)) (hx : x ≠ []) :
    (joinWords (x :: ts)).head? = x.head? := by
  cases ts with
  | nil => rfl
  | cons y ts2 =>
    cases x with
    | nil => cases hx rfl
    | cons c x2 => rfl

theorem noLead_joinWords {ts : List (List Char)}
    (h : ∀ w ∈ ts, w ≠ [] ∧ ∀ c ∈ w, pyIsSpace c = false) :
    noLeadSpace (joinWords ts) = true := by
  cases ts with
  | nil => rfl
  | cons w ts =>
    obtain ⟨hne, hns⟩ := h w (by simp)
    cases ts with
    | nil =>
      show noLeadSpace w = true
      cases w with
      | nil => rfl
      | cons c w2 =>
        show (!pyIsSpace c) = true
        simp [hns c (by simp)]
    | cons x ts2 =>
      show noLeadSpace (w ++ ' ' :: joinWords (x :: ts2)) = true
      cases w with
      | nil => cases hne rfl
      | cons c w2 =>
        show (!pyIsSpace c) = true
        simp [hns c (by simp)]

theorem noTrail_append {w z : List Char} (hz : z ≠ []) :
    noTrailSpace (w ++ z) = noTrailSpace z := by
  cases hlast : z.getLast? with
  | none => exact absurd (List.getLast?_eq_none_iff.mp hlast) hz
  | some c =>
    unfold noTrailSpace
    rw [List.getLast?_append, hlast]
    rfl

theorem noTrail_of_nonspace {w : List Char}
    (hns : ∀ c ∈ w, pyIsSpace c = false) : noTrailSpace w = true := by
  cases hlast : w.getLast? with
  | none => unfold noTrailSpace; rw [hlast]
  | some c =>
    unfold noTrailSpace
    rw [hlast]
    have hc := hns c (List.mem_of_getLast?_eq_some hlast)
    simp [hc]

theorem noTrail_joinWords {ts : List (List Char)}
    (h : ∀ w ∈ ts, w ≠ [] ∧ ∀ c ∈ w, pyIsSpace c = false) :
    noTrailSpace (joinWords ts) = true := by
  induction ts with
  | nil => rfl
  | cons w ts ih =>
    cases ts with
    | nil =>
      show noTrailSpace w = true
      exact noTrail_of_nonspace (h w (by simp)).2
    | cons x ts2 =>
      show noTrailSpace (w ++ ' ' :: joinWords (x :: ts2)) = true
      have hr : ∀ v ∈ x :: ts2, v ≠ [] ∧ ∀ c ∈ v, pyIsSpace c = false :=
        fun v hv => h v (List.mem_cons_of_mem _ hv)
      have hJ : joinWords (x :: ts2) ≠ [] :=
        joinWords_ne_nil (by simp) (fun v hv => (hr v hv).1)
      rw [noTrail_append (by simp), show (' ' :: joinWords (x :: ts2)) =
        [' '] ++ joinWords (x :: ts2) from rfl, noTrail_append hJ]
      exact ih hr

theorem noDouble_append_nonspace {w z : List Char}
    (hns : ∀ c ∈ w, pyIsSpace c = false) (hz : noDoubleSpace z = true) :
    noDoubleSpace (w ++ z) = true := by
  induction w with
  | nil => simpa using hz
  | cons a w2 ih =>
    have ha : pyIsSpace a = false := hns a (by simp)
    cases w2 with
    | nil =>
      cases z with
      | nil => rfl
      | cons b z2 =>
        show ((!(pyIsSpace a && pyIsSpace b)) && noDoubleSpace (b :: z2)) = true
        rw [ha, hz]
        simp
    | cons a2 w3 =>
      have ha2 : pyIsSpace a2 = false := hns a2 (by simp)
      show ((!(pyIsSpace a && pyIsSpace a2)) && noDoubleSpace (a2 :: (w3 ++ z))) = true
      rw [ha]
      have hih := ih (fun c hc => hns c (List.mem_cons_of_mem _ hc))
      simpa using hih

theorem noDouble_joinWords {ts : List (List Char)}
    (h : ∀ w ∈ ts, w ≠ [] ∧ ∀ c ∈ w, pyIsSpace c = false) :
    noDoubleSpace (joinWords ts) = true := by
  induction ts with
  | nil => rfl
  | cons w ts ih =>
    cases ts with
    | nil =>
      show noDoubleSpace w = true
      have := noDouble_append_nonspace (h w (by simp)).2 (z := []) rfl
      simpa using this
    | cons x ts2 =>
      show noDoubleSpace (w ++ ' ' :: joinWords (x :: ts2)) = true
      apply noDouble_append_nonspace (h w (by simp)).2
      have hr : ∀ v ∈ x :: ts2, v ≠ [] ∧ ∀ c ∈ v, pyIsSpace c = false :=
        fun v hv => h v (List.mem_cons_of_mem _ hv)
      have hih : noDoubleSpace (joinWords (x :: ts2)) = true := ih hr
      cases hJ : joinWords (x :: ts2) with
      | nil => rfl
      | cons j J2 =>
        show ((!(pyIsSpace ' ' && pyIsSpace j)) && noDoubleSpace (j :: J2)) = true
        have hj : pyIsSpace j = false := by
          have hhead : (joinWords (x :: ts2)).head? = (x : List Char).head? :=
            joinWords_head_cons x ts2 (hr x (by simp)).1
          rw [hJ] at hhead
          cases x with
          | nil => exact absurd rfl (hr [] (by simp)).1
          | cons c x2 =>
            have hjc : j = c := Option.some.inj hhead
            rw [hjc]
            exact (hr (c :: x2) (by simp)).2 c (by simp)
        rw [hj]
        rw [hJ] at hih
        rw [hih]
        simp

theorem allSingle_joinWords {ts : List (List Char)}
    (h : ∀ w ∈ ts, w ≠ [] ∧ ∀ c ∈ w, pyIsSpace c = false) :
    allSingleSpace (joinWords ts) = true := by
  rw [allSingleSpace, List.all_eq_true]
  intro c hc
  rcases joinWords_chars hc with rfl | ⟨w, hw, hcw⟩
  · simp [pyIsSpace]
  · have hcw2 := (h w hw).2 c hcw
    simp [hcw2]

theorem matchHead_elim {l : List Char} (h : matchHead l = true) :
    ∃ c1 c2 c3 c4 d rest, l = c1 :: c2 :: c3 :: c4 :: d :: rest ∧
      ((c1 = 'h' ∧ c2 = 't' ∧ c3 = 't' ∧ c4 = 'p') ∨
        (c1 = 'w' ∧ c2 = 'w' ∧ c3 = 'w' ∧ c4 = '.')) ∧
      pyIsSpace d = false := by
  rcases l with _ | ⟨c1, _ | ⟨c2, _ | ⟨c3, _ | ⟨c4, _ | ⟨d, rest⟩⟩⟩⟩⟩ <;>
    simp only [matchHead] at h
  all_goals try exact absurd h Bool.false_ne_true
  rw [Bool.and_eq_true, Bool.or_eq_true] at h
  refine ⟨c1, c2, c3, c4, d, rest, rfl, ?_, ?_⟩
  · rcases h.1 with h1 | h1
    · simp only [Bool.and_eq_true, decide_eq_true_eq] at h1
      exact Or.inl ⟨h1.1.1.1, h1.1.1.2, h1.1.2, h1.2⟩
    · simp only [Bool.and_eq_true, decide_eq_true_eq] at h1
      exact Or.inr ⟨h1.1.1.1, h1.1.1.2, h1.1.2, h1.2⟩
  · have h2 := h.2
    rw [Bool.not_eq_true'] at h2
    exact h2

theorem matchHead_length {l : List Char} (h : matchHead l = true) : 5 ≤ l.length := by
  obtain ⟨c1, c2, c3, c4, d, rest, rfl, _, _⟩ := matchHead_elim h
  simp

theorem matchHead_nonspace5 {x : List Char} (h : matchHead x = true)
    (i : Nat) (hi : i < 5) : ∃ ci, x[i]? = some ci ∧ pyIsSpace ci = false := by
  obtain ⟨c1, c2, c3, c4, d, rest, rfl, hp, hd⟩ := matchHead_elim h
  have h1 : pyIsSpace c1 = false ∧ pyIsSpace c2 = false ∧
      pyIsSpace c3 = false ∧ pyIsSpace c4 = false := by
    rcases hp with ⟨rfl, rfl, rfl, rfl⟩ | ⟨rfl, rfl, rfl, rfl⟩ <;>
      exact ⟨by decide, by decide, by decide, by decide⟩
  match i, hi with
  | 0, _ => exact ⟨c1, by simp, h1.1⟩
  | 1, _ => exact ⟨c2, by simp, h1.2.1⟩
  | 2, _ => exact ⟨c3, by simp, h1.2.2.1⟩
  | 3, _ => exact ⟨c4, by simp, h1.2.2.2⟩
  | 4, _ => exact ⟨d, by simp, hd⟩
  | n + 5, hh => exact absurd hh (by omega)

theorem matchHead_append_space {u v : List Char} {c : Char} (hc : pyIsSpace c = true)
    (hu : u.length ≤ 4) : matchHead (u ++ c :: v) = false := by
  cases hb : matchHead (u ++ c :: v) with
  | false => rfl
  | true =>
    exfalso
    obtain ⟨ci, hci, hns⟩ := matchHead_nonspace5 hb u.length (by omega)
    rw [List.getElem?_append_right (Nat.le_refl _)] at hci
    simp only [Nat.sub_self, List.getElem?_cons_zero, Option.some.injEq] at hci
    rw [← hci] at hns
    rw [hc] at hns
    cases hns

theorem matchHead_append_of_le {u v : List Char} (hu : 5 ≤ u.length) :
    matchHead (u ++ v) = matchHead u := by
  rcases u with _ | ⟨a, _ | ⟨b, _ | ⟨c, _ | ⟨d, _ | ⟨e, u2⟩⟩⟩⟩⟩
  · exact absurd hu (by simp)
  · exact absurd hu (by simp)
  · exact absurd hu (by simp)
  · exact absurd hu (by simp)
  · exact absurd hu (by simp)
  · rfl

theorem hasUrlMatch_append_sep {w r : List Char} {c : Char} (hc : pyIsSpace c = true) :
    hasUrlMatch (w ++ c :: r) = (hasUrlMatch w || hasUrlMatch (c :: r)) := by
  induction w with
  | nil =>
    show hasUrlMatch (c :: r) = (hasUrlMatch ([] : List Char) || hasUrlMatch (c :: r))
    rw [show hasUrlMatch ([] : List Char) = false from rfl, Bool.false_or]
  | cons a w2 ih =>
    show (matchHead ((a :: w2) ++ c :: r) || hasUrlMatch (w2 ++ c :: r)) =
      ((matchHead (a :: w2) || hasUrlMatch w2) || hasUrlMatch (c :: r))
    rw [ih]
    by_cases hlen : 5 ≤ (a :: w2).length
    · rw [matchHead_append_of_le hlen, Bool.or_assoc]
    · have h1 : matchHead ((a :: w2) ++ c :: r) = false := by
        apply matchHead_append_space hc
        simp only [List.length_cons] at hlen ⊢
        omega
      have h2 : matchHead (a :: w2) = false := by
        cases h2b : matchHead (a :: w2) with
        | false => rfl
        | true => exact absurd (matchHead_length h2b) hlen
      rw [h1, h2]
      simp [Bool.or_assoc]

theorem splitWs_match_free :
    ∀ (f : Nat) (l : List Char), l.length ≤ f → hasUrlMatch l = false →
      ∀ w ∈ splitWs l, hasUrlMatch w = false := by
  intro f
  induction f with
  | zero =>
    intro l hl _ w hw
    have : l = [] := List.length_eq_zero.mp (Nat.le_zero.mp hl)
    subst this
    rw [splitWs_nil] at hw
    cases hw
  | succ f ih =>
    intro l hl h w hw
    cases l with
    | nil => rw [splitWs_nil] at hw; cases hw
    | cons c cs =>
      have hcomp : (matchHead (c :: cs) || hasUrlMatch cs) = false := h
      rw [Bool.or_eq_false_iff] at hcomp
      rw [splitWs_cons] at hw
      by_cases hc : pyIsSpace c
      · rw [if_pos hc] at hw
        exact ih cs (Nat.le_of_succ_le_succ hl) hcomp.2 w hw
      · rw [if_neg hc] at hw
        cases hrest : (c :: cs).dropWhile (fun d => !pyIsSpace d) with
        | nil =>
          have htake : (c :: cs).takeWhile (fun d => !pyIsSpace d) = c :: cs := by
            have := List.takeWhile_append_dropWhile (fun d => !pyIsSpace d) (c :: cs)
            rw [hrest, List.append_nil] at this
            exact this
          rw [hrest, htake, splitWs_nil] at hw
          rcases List.mem_cons.mp hw with heq | hw2
          · subst heq; exact h
          · cases hw2
        | cons d rest2 =>
          have hd : pyIsSpace d = true := by
            have hh := List.head?_dropWhile_not (fun d => !pyIsSpace d) (c :: cs)
            rw [hrest] at hh
            simpa using hh
          have hsplit : (c :: cs).takeWhile (fun d => !pyIsSpace d) ++ d :: rest2 = c :: cs := by
            have := List.takeWhile_append_dropWhile (fun d => !pyIsSpace d) (c :: cs)
            rw [hrest] at this
            exact this
          have hmatch : (hasUrlMatch ((c :: cs).takeWhile (fun d => !pyIsSpace d)) ||
              hasUrlMatch (d :: rest2)) = false := by
            rw [← hasUrlMatch_append_sep hd, hsplit]
            exact h
          rw [Bool.or_eq_false_iff] at hmatch
          rw [hrest] at hw
          rcases List.mem_cons.mp hw with heq | hw2
          · subst heq; exact hmatch.1
          · have hlen : (d :: rest2).length ≤ f := by
              have h0 : ((c :: cs).dropWhile (fun d => !pyIsSpace d)).length ≤ cs.length := by
                rw [List.dropWhile_cons_of_pos (by simpa using hc)]
                exact length_dropWhile_le_own _ cs
              rw [hrest] at h0
              simp only [List.length_cons] at h0 hl ⊢
              omega
            exact ih (d :: rest2) hlen hmatch.2 w hw2

theorem hasUrlMatch_joinWords {ts : List (List Char)}
    (h : ∀ w ∈ ts, w ≠ [] ∧ (∀ c ∈ w, pyIsSpace c = false) ∧ hasUrlMatch w = false) :
    hasUrlMatch (joinWords ts) = false := by
  induction ts with
  | nil => rfl
  | cons w ts ih =>
    cases ts with
    | nil =>
      show hasUrlMatch w = false
      exact (h w (by simp)).2.2
    | cons x ts2 =>
      show hasUrlMatch (w ++ ' ' :: joinWords (x :: ts2)) = false
      rw [hasUrlMatch_append_sep (by decide)]
      rw [(h w (by simp)).2.2]
      have hJ : hasUrlMatch (joinWords (x :: ts2)) = false :=
        ih (fun v hv => h v (List.mem_cons_of_mem _ hv))
      show (false || (matchHead (' ' :: joinWords (x :: ts2)) ||
        hasUrlMatch (joinWords (x :: ts2)))) = false
      rw [hJ]
      have hmh : matchHead (' ' :: joinWords (x :: ts2)) = false := by
        have := matchHead_append_space (u := []) (v := joinWords (x :: ts2))
          (c := ' ') (by decide) (by simp)
        simpa using this
      rw [hmh]
      rfl

theorem drop_takeWhile_length (p : Char → Bool) :
    ∀ (x : List Char), x.drop ((x.takeWhile p).length) = x.dropWhile p := by
  intro x
  induction x with
  | nil => rfl
  | cons a x ih =>
    by_cases h : p a
    · rw [List.takeWhile_cons_of_pos h, List.dropWhile_cons_of_pos h]
      simpa using ih
    · rw [List.takeWhile_cons_of_neg h, List.dropWhile_cons_of_neg h]
      rfl

theorem dropWhile_head_space (l : List Char) :
    l.dropWhile (fun d => !pyIsSpace d) = [] ∨
      ∃ d r2, l.dropWhile (fun d => !pyIsSpace d) = d :: r2 ∧ pyIsSpace d = true := by
  cases hrest : l.dropWhile (fun d => !pyIsSpace d) with
  | nil => exact Or.inl rfl
  | cons d r2 =>
    refine Or.inr ⟨d, r2, rfl, ?_⟩
    have hh := List.head?_dropWhile_not (fun d => !pyIsSpace d) l
    rw [hrest] at hh
    simpa using hh

theorem matchLen_ge5 {l : List Char} (h : matchHead l = true) : 5 ≤ matchLen l := by
  obtain ⟨c1, c2, c3, c4, d, rest, heq, _, hd⟩ := matchHead_elim h
  rw [matchLen, if_pos h, heq]
  show 5 ≤ 4 + ((d :: rest).takeWhile (fun d => !pyIsSpace d)).length
  rw [List.takeWhile_cons_of_pos (by simp [hd])]
  simp only [List.length_cons]
  omega

theorem removeUrls_drop_space {l : List Char} (h : matchHead l = true) :
    l.drop (matchLen l) = [] ∨
      ∃ d r2, l.drop (matchLen l) = d :: r2 ∧ pyIsSpace d = true := by
  have hdrop : l.drop (matchLen l) = (l.drop 4).dropWhile (fun d => !pyIsSpace d) := by
    rw [matchLen, if_pos h]
    rw [← List.drop_drop]
    rw [drop_takeWhile_length]
  rw [hdrop]
  exact dropWhile_head_space (l.drop 4)

theorem removeUrls_sublist_fuel :
    ∀ (f : Nat) (l : List Char), l.length ≤ f → List.Sublist (removeUrls l) l := by
  intro f
  induction f with
  | zero =>
    intro l hl
    have : l = [] := List.length_eq_zero.mp (Nat.le_zero.mp hl)
    subst this
    rw [removeUrls_nil]
  | succ f ih =>
    intro l hl
    cases l with
    | nil => rw [removeUrls_nil]
    | cons c cs =>
      by_cases hm : matchHead (c :: cs)
      · rw [removeUrls_cons_match hm]
        have h5 := matchLen_ge5 hm
        have hlen : ((c :: cs).drop (matchLen (c :: cs))).length ≤ f := by
          rw [List.length_drop]
          simp only [List.length_cons] at hl ⊢
          omega
        exact (ih _ hlen).trans (List.drop_sublist _ _)
      · rw [removeUrls_cons_keep (by simpa using hm)]
        exact (ih cs (Nat.le_of_succ_le_succ hl)).cons₂ c

theorem removeUrls_sublist (l : List Char) : List.Sublist (removeUrls l) l :=
  removeUrls_sublist_fuel l.length l (Nat.le_refl _)

theorem removeUrls_head :
    ∀ (f : Nat) (l : List Char), l.length ≤ f → ∀ d : Char, pyIsSpace d = false →
      (removeUrls l).head? = some d → l.head? = some d ∧ matchHead l = false := by
  intro f
  induction f with
  | zero =>
    intro l hl d _ hhead
    have : l = [] := List.length_eq_zero.mp (Nat.le_zero.mp hl)
    subst this
    rw [removeUrls_nil] at hhead
    cases hhead
  | succ f ih =>
    intro l hl d hd hhead
    cases l with
    | nil => rw [removeUrls_nil] at hhead; cases hhead
    | cons c cs =>
      by_cases hm : matchHead (c :: cs)
      · exfalso
        rw [removeUrls_cons_match hm] at hhead
        have h5 := matchLen_ge5 hm
        have hlen : ((c :: cs).drop (matchLen (c :: cs))).length ≤ f := by
          rw [List.length_drop]
          simp only [List.length_cons] at hl ⊢
          omega
        obtain ⟨hh, _⟩ := ih _ hlen d hd hhead
        rcases removeUrls_drop_space hm with hnil | ⟨e, r2, he, hesp⟩
        · rw [hnil] at hh; cases hh
        · rw [he] at hh
          have : e = d := Option.some.inj hh
          rw [this, hd] at hesp
          cases hesp
      · rw [removeUrls_cons_keep (by simpa using hm)] at hhead
        have hc : c = d := Option.some.inj hhead
        subst hc
        exact ⟨rfl, by simpa using hm⟩

theorem removeUrls_nonspace_pre :
    ∀ (p : List Char), (∀ c ∈ p, pyIsSpace c = false) →
      ∀ (l r : List Char), removeUrls l = p ++ r → ∃ l2, l = p ++ l2 := by
  intro p
  induction p with
  | nil => intro _ l r _; exact ⟨l, rfl⟩
  | cons a p2 ih =>
    intro hns l r heq
    have hhead : (removeUrls l).head? = some a := by rw [heq]; rfl
    obtain ⟨hl, hm⟩ := removeUrls_head l.length l (Nat.le_refl _) a (hns a (by simp)) hhead
    cases l with
    | nil => cases hl
    | cons c cs =>
      have hc : c = a := Option.some.inj hl
      subst hc
      rw [removeUrls_cons_keep hm, List.cons_append, List.cons.injEq] at heq
      have htail : removeUrls cs = p2 ++ r := heq.2
      obtain ⟨l2, hl2⟩ := ih (fun x hx => hns x (List.mem_cons_of_mem _ hx)) cs r htail
      exact ⟨l2, by rw [List.cons_append, hl2]⟩

theorem matchHead_removeUrls {c : Char} {cs : List Char}
    (h : matchHead (c :: removeUrls cs) = true) : matchHead (c :: cs) = true := by
  obtain ⟨c1, c2, c3, c4, d, rest, heq, hp, hd⟩ := matchHead_elim h
  rw [List.cons.injEq] at heq
  have hc : c = c1 := heq.1
  have htail : removeUrls cs = c2 :: c3 :: c4 :: d :: rest := heq.2
  have hns : ∀ x ∈ [c2, c3, c4, d], pyIsSpace x = false := by
    intro x hx
    simp only [List.mem_cons, List.mem_singleton] at hx
    rcases hp with ⟨_, rfl, rfl, rfl⟩ | ⟨_, rfl, rfl, rfl⟩ <;>
      rcases hx with rfl | rfl | rfl | hx
    · decide
    · decide
    · decide
    · simp only [List.not_mem_nil, or_false] at hx
      rw [hx]; exact hd
    · decide
    · decide
    · decide
    · simp only [List.not_mem_nil, or_false] at hx
      rw [hx]; exact hd
  obtain ⟨l2, hl2⟩ := removeUrls_nonspace_pre [c2, c3, c4, d] hns cs rest
    (by rw [htail]; rfl)
  rw [hc, hl2]
  show matchHead (c1 :: c2 :: c3 :: c4 :: d :: l2) = true
  rcases hp with ⟨rfl, rfl, rfl, rfl⟩ | ⟨rfl, rfl, rfl, rfl⟩ <;>
    simp [matchHead, hd]

theorem removeUrls_match_free_fuel :
    ∀ (f : Nat) (l : List Char), l.length ≤ f → hasUrlMatch (removeUrls l) = false := by
  intro f
  induction f with
  | zero =>
    intro l hl
    have : l = [] := List.length_eq_zero.mp (Nat.le_zero.mp hl)
    subst this
    rw [removeUrls_nil]
    rfl
  | succ f ih =>
    intro l hl
    cases l with
    | nil => rw [removeUrls_nil]; rfl
    | cons c cs =>
      by_cases hm : matchHead (c :: cs)
      · rw [removeUrls_cons_match hm]
        have h5 := matchLen_ge5 hm
        have hlen : ((c :: cs).drop (matchLen (c :: cs))).length ≤ f := by
          rw [List.length_drop]
          simp only [List.length_cons] at hl ⊢
          omega
        exact ih _ hlen
      · rw [removeUrls_cons_keep (by simpa using hm)]
        show (matchHead (c :: removeUrls cs) || hasUrlMatch (removeUrls cs)) = false
        have h2 : hasUrlMatch (removeUrls cs) = false := ih cs (Nat.le_of_succ_le_succ hl)
        have h1 : matchHead (c :: removeUrls cs) = false := by
          cases h1b : matchHead (c :: removeUrls cs) with
          | false => rfl
          | true => exact absurd (matchHead_removeUrls h1b) hm
        rw [h1, h2]
        rfl

theorem removeUrls_match_free (l : List Char) : hasUrlMatch (removeUrls l) = false :=
  removeUrls_match_free_fuel l.length l (Nat.le_refl _)

theorem clean_text_tokens (s : List Char) :
    ∀ w ∈ (splitWs (removeEmoji (removeUrls s))).filter (fun w => !isStopWord w),
      w ≠ [] ∧ ∀ c ∈ w, pyIsSpace c = false := by
  intro w hw
  have hw2 := List.mem_filter.mp hw
  have hp := splitWs_token_props (removeEmoji (removeUrls s)) w hw2.1
  exact ⟨hp.1, hp.2.1⟩

/-- Counterexample to C5 as stated: on the input `"ht😀tp://x a"` the
cleaner's own order of operations (URLs first, then emoji) splices the
characters around the removed emoji into `"http://x"`, so the output
does contain a substring matching the URL pattern the cleaner
removes. -/
theorem C5_counterexample_url_from_emoji :
    cleanTextS "ht😀tp://x a" = "http://x" ∧
    hasUrlMatch (clean_text ("ht😀tp://x a".toList)) = true := by
  exact ⟨by decide, by decide⟩

/-- C5 (amended): for every input, the cleaner's output contains no
emoji character and no whitespace-delimited token of the output is a
stop-word; when the input contains no emoji character, the output also
contains no substring matching the URL patterns the cleaner removes. -/
theorem C5_cleaner_properties (s : List Char) :
    (∀ c ∈ clean_text s, isEmoji c = false) ∧
    (∀ w ∈ splitWs (clean_text s), isStopWord w = false) ∧
    ((∀ c ∈ s, isEmoji c = false) → hasUrlMatch (clean_text s) = false) := by
  have htok := clean_text_tokens s
  refine ⟨?_, ?_, ?_⟩
  · intro c hc
    rcases joinWords_chars hc with rfl | ⟨w, hw, hcw⟩
    · decide
    · have hw2 := List.mem_filter.mp hw
      have hp := splitWs_token_props (removeEmoji (removeUrls s)) w hw2.1
      have hct : c ∈ removeEmoji (removeUrls s) := hp.2.2 c hcw
      have hmf := List.mem_filter.mp hct
      simpa using hmf.2
  · intro w hw
    have hsplit : splitWs (clean_text s) =
        (splitWs (removeEmoji (removeUrls s))).filter (fun w => !isStopWord w) :=
      splitWs_joinWords htok
    rw [hsplit] at hw
    have hst := (List.mem_filter.mp hw).2
    simpa using hst
  · intro hemoji
    have hre : removeEmoji (removeUrls s) = removeUrls s := by
      unfold removeEmoji
      rw [List.filter_eq_self]
      intro a ha
      have has : a ∈ s := (removeUrls_sublist s).subset ha
      simp [hemoji a has]
    have hbase : hasUrlMatch (removeUrls s) = false := removeUrls_match_free s
    have htokfree : ∀ w ∈ splitWs (removeUrls s), hasUrlMatch w = false :=
      splitWs_match_free (removeUrls s).length _ (Nat.le_refl _) hbase
    show hasUrlMatch (joinWords ((splitWs (removeEmoji (removeUrls s))).filter
      (fun w => !isStopWord w))) = false
    rw [hre]
    apply hasUrlMatch_joinWords
    intro w hw
    have hw2 := List.mem_filter.mp hw
    have hp := splitWs_token_props (removeUrls s) w hw2.1
    exact ⟨hp.1, hp.2.1, htokfree w hw2.1⟩

/-- Witness for C5 (amended) at a concrete emoji-free input containing
a URL and stop-words. -/
theorem C5_cleaner_properties_witness :
    (∀ c ∈ clean_text ("Visit www.example.org this is not good".toList),
      isEmoji c = false) ∧
    (∀ w ∈ splitWs (clean_text ("Visit www.example.org this is not good".toList)),
      isStopWord w = false) ∧
    hasUrlMatch (clean_text ("Visit www.example.org this is not good".toList)) = false :=
  ⟨(C5_cleaner_properties _).1, (C5_cleaner_properties _).2.1,
   (C5_cleaner_properties _).2.2 (by decide)⟩

/-- C6: the specification's concrete example: the cleaner maps
`"Check http://x.com 😀 this is not good"` to exactly `"Check good"` —
URL and emoji stripped, the stop-words `this`, `is`, `not` removed, and
word order preserved. -/
theorem C6_example_clean :
    cleanTextS "Check http://x.com 😀 this is not good" = "Check good" := by
  decide

/-- C10 (implicit): the cleaner's output is whitespace-normalized:
re-splitting it yields exactly the surviving tokens (so it is the
tokens joined by single spaces), it has no leading or trailing
whitespace, no two adjacent whitespace characters, and every
whitespace character in it is a plain space. -/
theorem C10_whitespace_normalized (s : List Char) :
    splitWs (clean_text s) =
      (splitWs (removeEmoji (removeUrls s))).filter (fun w => !isStopWord w) ∧
    noLeadSpace (clean_text s) = true ∧
    noTrailSpace (clean_text s) = true ∧
    noDoubleSpace (clean_text s) = true ∧
    allSingleSpace (clean_text s) = true := by
  have htok := clean_text_tokens s
  exact ⟨splitWs_joinWords htok, noLead_joinWords htok, noTrail_joinWords htok,
    noDouble_joinWords htok, allSingle_joinWords htok⟩

end YoutubeEtl
